import Mathlib

/-!
Verification of the `jahvon/expression` library: the expression-evaluation
facade (`expr.go`) and the template action rewriter.  The repository ships
two variants of the rewriter in the same package: the one in `template.go`
(called variant A below) and a second, more complete one carrying
`processAction`, `isGoSyntax` and `setVar` (variant B below).  Go strings
are modelled as `List Char` (all delimiter characters are ASCII, so the
byte-level `strings.Index`/`HasPrefix` operations coincide with the
char-level model); `strings.TrimSpace` is modelled with the ASCII
whitespace set.  The scope-depth counter (a Go `int` whose decrement is
guarded by `> 0` and whose increments are bounded by the template length)
is modelled as `Int`.
-/

namespace Expression

/-- Character list of a string literal. -/
def strL (s : String) : List Char := s.data

/-- ASCII whitespace, the ASCII fragment of Go's `unicode.IsSpace`. -/
def isSp (c : Char) : Bool :=
  c == ' ' || c == '\t' || c == '\n' || c == '\x0b' || c == '\x0c' || c == '\r'

/-- Left part of Go's `strings.TrimSpace`. -/
def trimLeft (l : List Char) : List Char := l.dropWhile isSp

/-- Right part of Go's `strings.TrimSpace`. -/
def trimRight (l : List Char) : List Char := (l.reverse.dropWhile isSp).reverse

/-- Model of `strings.TrimSpace`. -/
def trimSpace (l : List Char) : List Char := trimRight (trimLeft l)

/-- Model of `strings.TrimPrefix`. -/
def dropPre (p l : List Char) : List Char :=
  if p.isPrefixOf l then l.drop p.length else l

/-- Model of `strings.TrimSuffix`. -/
def dropSuf (s l : List Char) : List Char :=
  if s.isSuffixOf l then l.take (l.length - s.length) else l

/-- Model of `strings.Contains` for a non-empty pattern. -/
def containsStr (p : List Char) : List Char → Bool
  | [] => p.isPrefixOf []
  | c :: t => p.isPrefixOf (c :: t) || containsStr p t

/-- Split a character list at the first occurrence of the two-character
pattern `a b`, returning the part before and the part after it.  This is
the search step of `strings.Index(s, "\x7b\x7b")` and friends. -/
def splitPair (a b : Char) : List Char → Option (List Char × List Char)
  | c1 :: c2 :: rest =>
    if c1 == a && c2 == b then some ([], rest)
    else
      match splitPair a b (c2 :: rest) with
      | some (p, q) => some (c1 :: p, q)
      | none => none
  | _ => none

/-- Accumulator loop of `strings.Split(s, ":=")`. -/
def splitCEAux : List Char → List Char → List (List Char)
  | ':' :: '=' :: rest, acc => acc.reverse :: splitCEAux rest []
  | c :: rest, acc => splitCEAux rest (c :: acc)
  | [], acc => [acc.reverse]

/-- Model of `strings.Split(s, ":=")`: split on every (left-to-right,
non-overlapping) occurrence of `:=`. -/
def splitCE (l : List Char) : List (List Char) := splitCEAux l []

/-- Model of `strings.Contains(s, ":=")`. -/
def containsCE (l : List Char) : Bool := containsStr [':', '='] l

/-! Keyword constants of the rewriter. -/

def kwIf : List Char := strL "if "
def kwElseIf : List Char := strL "else if "
def kwWith : List Char := strL "with "
def kwRange : List Char := strL "range "
def kwEnd : List Char := strL "end"
def kwElse : List Char := strL "else"
def dotL : List Char := ['.']
def dashL : List Char := ['-']
def dollarL : List Char := ['$']

/-- Model of `isGoSyntax` from the variant-B rewriter: a fragment is
host-template syntax when it contains a `$` anywhere, or when the scope
depth is positive and it starts with (or equals) `.`. -/
def isGoSyn (e0 : List Char) (d : Int) : Bool :=
  if (trimSpace e0).contains '$' then true
  else decide (0 < d)
    && (dotL.isPrefixOf (trimSpace e0) || trimSpace e0 == dotL)

/-- Escape for the model of Go's `%q` verb (printable-ASCII fragment). -/
def goEscChar (c : Char) : List Char :=
  if c == '"' || c == '\\' then ['\\', c] else [c]

/-- Model of Go's `%q` formatting of a short identifier (printable-ASCII
fragment of the escaping; the rewriter only quotes variable names). -/
def goQuote (s : List Char) : List Char :=
  '"' :: (s.map goEscChar).flatten ++ ['"']

/-! Variant-B rewriter: `processAction` and its per-keyword branches. -/

/-- The `if `/`else if ` branches of variant B's `processAction`. -/
def mkCond (kw c : List Char) (d : Int) : List Char :=
  if isGoSyn c d then kw ++ c
  else kw ++ strL "exprBool \x60" ++ c ++ ['\x60']

/-- The `with ` branch of variant B's `processAction`. -/
def mkWithB (v : List Char) (d : Int) : List Char :=
  if isGoSyn v d then kwWith ++ v
  else strL "with expr \x60" ++ v ++ ['\x60']

/-- The plain (no `:=`) tail of variant B's `range ` branch. -/
def mkRangePlainB (v : List Char) (d : Int) : List Char :=
  if isGoSyn v d then kwRange ++ v
  else strL "range expr \x60" ++ v ++ ['\x60']

/-- The `range ` branch of variant B's `processAction`: a two-part `:=`
split rewrites the right-hand side; any other shape falls through to the
plain handling. -/
def mkRangeB (v : List Char) (d : Int) : List Char :=
  if containsCE v then
    match splitCE v with
    | [p, q] =>
      if isGoSyn (trimSpace q) d then
        kwRange ++ trimSpace p ++ strL " := " ++ trimSpace q
      else kwRange ++ trimSpace p ++ strL " := expr \x60"
        ++ trimSpace q ++ ['\x60']
    | _ => mkRangePlainB v d
  else mkRangePlainB v d

/-- The assignment branch of variant B's `processAction`: wraps the
assignment in a `setVar` call. -/
def mkAssignB (p q : List Char) (d : Int) : List Char :=
  if isGoSyn (trimSpace q) d then
    trimSpace p ++ strL " := (setVar "
      ++ goQuote (dropPre dollarL (trimSpace p))
      ++ [' '] ++ trimSpace q ++ [')']
  else
    trimSpace p ++ strL " := (setVar "
      ++ goQuote (dropPre dollarL (trimSpace p))
      ++ strL " (expr \x60" ++ trimSpace q ++ strL "\x60))"

/-- The keyword/default tail of variant B's `processAction`. -/
def restB (a : List Char) (d : Int) : List Char :=
  if a == kwEnd || a == kwElse then a
  else if isGoSyn a d then a
  else strL "expr \x60" ++ a ++ ['\x60']

/-- Assignment dispatch of variant B: a `:=` action with exactly two split
segments is rewritten via `setVar`; anything else falls through. -/
def assignOrRestB (a : List Char) (d : Int) : List Char :=
  if containsCE a then
    match splitCE a with
    | [p, q] => mkAssignB p q d
    | _ => restB a d
  else restB a d

/-- Keyword dispatch of variant B's `processAction`, applied to the
already-trimmed action body. -/
def processActionT (a : List Char) (d : Int) : List Char :=
  if kwIf.isPrefixOf a then mkCond kwIf (trimSpace (dropPre kwIf a)) d
  else if kwElseIf.isPrefixOf a then
    mkCond kwElseIf (trimSpace (dropPre kwElseIf a)) d
  else if kwWith.isPrefixOf a then mkWithB (trimSpace (dropPre kwWith a)) d
  else if kwRange.isPrefixOf a then mkRangeB (trimSpace (dropPre kwRange a)) d
  else assignOrRestB a d

/-- Model of `processAction` of the variant-B rewriter: trim, then dispatch
on the leading keyword. -/
def processAction (a0 : List Char) (d : Int) : List Char :=
  processActionT (trimSpace a0) d

/-- Host-syntax test inlined in variant A's `if`/`else if` branches. -/
def hostCondA (c : List Char) (d : Int) : Bool :=
  (decide (0 < d) && dotL.isPrefixOf c) || c.contains '$'

/-- Model of the per-action switch of `preProcessExpressions` in
`template.go` (variant A).  Branch order follows the Go `switch`:
`if `, `with `, `end`, `else`, `else if `, `range `, default. -/
def processActionA (a : List Char) (d : Int) : List Char :=
  if kwIf.isPrefixOf a then
    if hostCondA (trimSpace (dropPre kwIf a)) d then
      kwIf ++ trimSpace (dropPre kwIf a)
    else strL "if exprBool \x60" ++ trimSpace (dropPre kwIf a) ++ ['\x60']
  else if kwWith.isPrefixOf a then
    strL "with expr \x60" ++ trimSpace (dropPre kwWith a) ++ ['\x60']
  else if a == kwEnd then kwEnd
  else if a == kwElse then kwElse
  else if kwElseIf.isPrefixOf a then
    if hostCondA (trimSpace (dropPre kwElseIf a)) d then
      kwElseIf ++ trimSpace (dropPre kwElseIf a)
    else strL "else if exprBool \x60" ++ trimSpace (dropPre kwElseIf a)
      ++ ['\x60']
  else if kwRange.isPrefixOf a then
    if containsCE (trimSpace (dropPre kwRange a)) then
      match splitCE (trimSpace (dropPre kwRange a)) with
      | [p, q] =>
        kwRange ++ trimSpace p ++ strL " := expr \x60" ++ trimSpace q
          ++ ['\x60']
      | _ => kwRange ++ trimSpace (dropPre kwRange a)
    else strL "range expr \x60" ++ trimSpace (dropPre kwRange a) ++ ['\x60']
  else if decide (0 < d) && (dotL.isPrefixOf a || a == dotL) then a
  else if containsCE a then
    match splitCE a with
    | [p, q] =>
      trimSpace p ++ strL " := "
        ++ (if decide (0 < d) && trimSpace q == dotL then dotL
            else strL "expr \x60" ++ trimSpace q ++ ['\x60'])
    | _ => a
  else if dollarL.isPrefixOf a then a
  else strL "expr \x60" ++ trimSpace a ++ ['\x60']

/-- Scope-depth update applied after each action, identical in both
rewriter variants: `range `/`with ` actions increment, a lone `end`
decrements only when the counter is positive. -/
def depthStep (d : Int) (a : List Char) : Int :=
  if kwRange.isPrefixOf a || kwWith.isPrefixOf a then d + 1
  else if a == kwEnd then (if 0 < d then d - 1 else d)
  else d

/-- Strip one leading and one trailing `-` trim marker and surrounding
whitespace from a raw action body, as both scanners do. -/
def stripAction (raw : List Char) : List Char :=
  trimSpace (dropSuf dashL (dropPre dashL raw))

/-- The opening action delimiter character. -/
def obc : Char := '\x7b'

/-- The closing action delimiter character. -/
def cbc : Char := '\x7d'

/-- Reassemble one rewritten action between delimiters, preserving trim
markers, as both scanners do. -/
def emitAction (h : List Char → Int → List Char) (raw : List Char) (d : Int) :
    List Char :=
  [obc, obc] ++ (if dashL.isPrefixOf raw then strL "- " else [' '])
    ++ h (stripAction raw) d
    ++ (if dashL.isSuffixOf raw then strL " -" else [' ']) ++ [cbc, cbc]

/-- The delimiter scan shared by both `preProcessExpressions` variants.
Outside an action (`none` state) it copies text verbatim until the next
open-delimiter pair; inside an action (`some acc` state) it accumulates
the raw action body until the close-delimiter pair, then emits the
rewritten action via `h` and the updated scope depth.  End of input while
inside an action reproduces the verbatim copy-through of an unterminated
open delimiter. -/
def scanAux (h : List Char → Int → List Char) :
    List Char → Option (List Char) → Int → List Char
  | [], none, _ => []
  | [], some acc, _ => obc :: obc :: acc.reverse
  | c1 :: rest, none, d =>
    match rest with
    | [] => [c1]
    | c2 :: rest2 =>
      if c1 == obc && c2 == obc then scanAux h rest2 (some []) d
      else c1 :: scanAux h (c2 :: rest2) none d
  | c1 :: rest, some acc, d =>
    match rest with
    | [] => obc :: obc :: (acc.reverse ++ [c1])
    | c2 :: rest2 =>
      if c1 == cbc && c2 == cbc then
        emitAction h acc.reverse d
          ++ scanAux h rest2 none (depthStep d (stripAction acc.reverse))
      else scanAux h (c2 :: rest2) (some (c1 :: acc)) d

/-- Model of `preProcessExpressions` of `template.go` (variant A). -/
def preProcessExpressionsA (text : List Char) : List Char :=
  scanAux processActionA text none 0

/-- Model of `preProcessExpressions` of the variant-B rewriter. -/
def preProcessExpressionsB (text : List Char) : List Char :=
  scanAux processAction text none 0

/-- Action extraction following exactly the delimiter scan of `scanAux`:
the sequence of marker-stripped, trimmed action bodies the rewriter
classifies during one pass. -/
def actsAux : List Char → Option (List Char) → List (List Char)
  | [], _ => []
  | c1 :: rest, none =>
    match rest with
    | [] => []
    | c2 :: rest2 =>
      if c1 == obc && c2 == obc then actsAux rest2 (some [])
      else actsAux (c2 :: rest2) none
  | c1 :: rest, some acc =>
    match rest with
    | [] => []
    | c2 :: rest2 =>
      if c1 == cbc && c2 == cbc then stripAction acc.reverse :: actsAux rest2 none
      else actsAux (c2 :: rest2) (some (c1 :: acc))

/-- The actions of one rewrite pass over a template text. -/
def actionsOf (text : List Char) : List (List Char) := actsAux text none

/-- An action that opens a scope (`range `/`with ` prefix). -/
def isOpenAct (a : List Char) : Bool := kwRange.isPrefixOf a || kwWith.isPrefixOf a

/-- An action that closes a scope (a lone `end`). -/
def isEndAct (a : List Char) : Bool := a == kwEnd

/-- Number of scope-opening actions. -/
def opensCnt (acts : List (List Char)) : Nat := acts.countP isOpenAct

/-- Number of `end` actions. -/
def endsCnt (acts : List (List Char)) : Nat := acts.countP isEndAct

/-- A well-formed action sequence: every prefix has at least as many
openings as `end`s, and the totals agree. -/
def balancedActs (acts : List (List Char)) : Bool :=
  ((List.range (acts.length + 1)).all fun i =>
      decide (endsCnt (acts.take i) ≤ opensCnt (acts.take i)))
    && endsCnt acts == opensCnt acts

/-- Scope depth after processing a list of actions, starting from zero. -/
def depthAfter (acts : List (List Char)) : Int := acts.foldl depthStep 0

/-! Model of the evaluation facade (`expr.go`).  Expression compilation and
execution are the out-of-scope external engine; the facade's own logic is the
type-switch glue applied to an already-evaluated dynamic value, modelled here
by `GoVal`: one constructor per dynamic type the switches distinguish. -/

/-- A dynamically typed Go value as the facade's type switches see it.
Collection and opaque constructors carry the `%T`-rendered type name of the
dynamic type.  `vFloat64` carries an exact rational payload (sufficient for
the zero/non-zero distinctions the facade makes; float formatting is not the
subject of any claim). -/
inductive GoVal where
  | vBool : Bool → GoVal
  | vInt : Int → GoVal
  | vInt64 : Int → GoVal
  | vFloat64 : Rat → GoVal
  | vUint : Nat → GoVal
  | vUint64 : Nat → GoVal
  | vString : List Char → GoVal
  | vBytes : List Char → GoVal
  | vNil : GoVal
  | vPtr : List Char → Bool → GoVal
  | vMap : List Char → List (GoVal × GoVal) → GoVal
  | vSlice : List Char → List GoVal → GoVal
  | vArray : List Char → List GoVal → GoVal
  | vFunc : List Char → GoVal
  | vOther : List Char → GoVal

/-- The `%T` type name of a dynamic value. -/
def typeName : GoVal → List Char
  | .vBool _ => strL "bool"
  | .vInt _ => strL "int"
  | .vInt64 _ => strL "int64"
  | .vFloat64 _ => strL "float64"
  | .vUint _ => strL "uint"
  | .vUint64 _ => strL "uint64"
  | .vString _ => strL "string"
  | .vBytes _ => strL "[]uint8"
  | .vNil => strL "<nil>"
  | .vPtr t _ => '*' :: t
  | .vMap t _ => t
  | .vSlice t _ => t
  | .vArray t _ => t
  | .vFunc t => t
  | .vOther t => t

/-- The comparison `v != 0` performed in the multi-type numeric case of the
truthiness switch.  With several types in one case clause, `v` keeps the
static type `interface\x7b\x7d`, and the untyped constant `0` is converted to its
default type `int`; two interface values are equal only when dynamic types
and values agree, so only a dynamic `int` can ever equal `0` here. -/
def neqZeroIface (v : GoVal) : Bool :=
  match v with
  | .vInt 0 => false
  | _ => true

/-- Cutset test of `strings.Trim(v, "\x22' ")` in `IsTruthy`. -/
def isCut (c : Char) : Bool := c == '"' || c == '\'' || c == ' '

/-- Model of `strings.Trim(v, "\x22' ")`. -/
def trimCut (l : List Char) : List Char :=
  ((l.dropWhile isCut).reverse.dropWhile isCut).reverse

/-- Model of `strconv.ParseBool`. -/
def parseBool (s : List Char) : Except (List Char) Bool :=
  if s == strL "1" || s == strL "t" || s == strL "T" || s == strL "TRUE"
      || s == strL "true" || s == strL "True" then .ok true
  else if s == strL "0" || s == strL "f" || s == strL "F" || s == strL "FALSE"
      || s == strL "false" || s == strL "False" then .ok false
  else .error (strL "invalid syntax")

/-- The coercion switch of `IsTruthy` (expr.go lines 28-41), applied to the
value produced by `Evaluate`: booleans pass through, the numeric case
performs the interface comparison `v != 0`, strings are trimmed and parsed
as boolean literals (a parse failure propagates as the error), everything
else is falsy. -/
def truthyCoerce : GoVal → Except (List Char) Bool
  | .vBool b => .ok b
  | .vInt n => .ok (neqZeroIface (.vInt n))
  | .vInt64 n => .ok (neqZeroIface (.vInt64 n))
  | .vFloat64 q => .ok (neqZeroIface (.vFloat64 q))
  | .vUint n => .ok (neqZeroIface (.vUint n))
  | .vUint64 n => .ok (neqZeroIface (.vUint64 n))
  | .vString s =>
    match parseBool (trimCut s) with
    | .ok b => .ok b
    | .error e => .error e
  | _ => .ok false

/-- The zero test the claim attributes to the numeric case: the numeric
payload itself is zero, whatever the dynamic numeric type. -/
def numIsZero : GoVal → Bool
  | .vInt n => n == 0
  | .vInt64 n => n == 0
  | .vFloat64 q => q == 0
  | .vUint n => n == 0
  | .vUint64 n => n == 0
  | _ => false

/-- Whether a value has one of the five numeric dynamic types. -/
def isNumericVal : GoVal → Bool
  | .vInt _ => true
  | .vInt64 _ => true
  | .vFloat64 _ => true
  | .vUint _ => true
  | .vUint64 _ => true
  | _ => false

/-- Rendering used for `%v` on a `float64`; abstracted as the rational's
default rendering (no claim depends on float formatting). -/
def fmtFloatV (q : Rat) : List Char := strL (toString q)

mutual
/-- Model of `fmt.Sprintf("%v", x)` for the dynamic values the facade can
render: the generic default representation.  Pointer/function addresses are
abstracted by their type names (never reached by the render path for
top-level values). -/
def fmtV : GoVal → List Char
  | .vBool b => if b then strL "true" else strL "false"
  | .vInt n => strL (toString n)
  | .vInt64 n => strL (toString n)
  | .vFloat64 q => fmtFloatV q
  | .vUint n => strL (toString n)
  | .vUint64 n => strL (toString n)
  | .vString s => s
  | .vBytes s => s
  | .vNil => strL "<nil>"
  | .vPtr t _ => '&' :: t
  | .vMap _ ps => strL "map[" ++ fmtPairsV ps ++ [']']
  | .vSlice _ es => '[' :: fmtListV es ++ [']']
  | .vArray _ es => '[' :: fmtListV es ++ [']']
  | .vFunc t => t
  | .vOther t => t

/-- Space-separated element rendering of `%v` for sequences. -/
def fmtListV : List GoVal → List Char
  | [] => []
  | [x] => fmtV x
  | x :: y :: t => fmtV x ++ ' ' :: fmtListV (y :: t)

/-- `k:v` pair rendering of `%v` for maps (in stored order). -/
def fmtPairsV : List (GoVal × GoVal) → List Char
  | [] => []
  | [kv] => fmtV kv.1 ++ ':' :: fmtV kv.2
  | kv :: kv2 :: t => fmtV kv.1 ++ ':' :: fmtV kv.2 ++ ' ' :: fmtPairsV (kv2 :: t)
end

/-- The error text `fmt.Errorf("unexpected output type %T from expression
%q", output, ex)` of `EvaluateString`. -/
def unexpMsg (ex ty : List Char) : List Char :=
  strL "unexpected output type " ++ ty ++ strL " from expression " ++ goQuote ex

/-- The rendering switch of `EvaluateString` (expr.go lines 68-91), applied
to the value produced by `Evaluate`: strings/numerics/booleans/bytes render
directly; `nil` and nil pointers yield the empty string; maps, slices and
arrays use the `%v` default representation; everything else is an error
naming the expression and the dynamic type. -/
def renderValue (ex : List Char) (v : GoVal) : Except (List Char) (List Char) :=
  match v with
  | .vString s => .ok s
  | .vInt n => .ok (strL (toString n))
  | .vInt64 n => .ok (strL (toString n))
  | .vFloat64 q => .ok (fmtFloatV q)
  | .vUint n => .ok (strL (toString n))
  | .vUint64 n => .ok (strL (toString n))
  | .vBool b => .ok (if b then strL "true" else strL "false")
  | .vBytes s => .ok s
  | .vNil => .ok []
  | .vPtr t isNil =>
    if isNil then .ok [] else .error (unexpMsg ex (typeName (.vPtr t isNil)))
  | .vMap t ps => .ok (fmtV (.vMap t ps))
  | .vSlice t es => .ok (fmtV (.vSlice t es))
  | .vArray t es => .ok (fmtV (.vArray t es))
  | .vFunc t => .error (unexpMsg ex (typeName (.vFunc t)))
  | .vOther t => .error (unexpMsg ex (typeName (.vOther t)))

/-- The dynamic types `EvaluateString` renders without error. -/
def renderSupported : GoVal → Bool
  | .vPtr _ isNil => isNil
  | .vFunc _ => false
  | .vOther _ => false
  | _ => true

/-- Whether an `Except` result is an error. -/
def isErr {ε α : Type} : Except ε α → Bool
  | .error _ => true
  | .ok _ => false

/-! Model of `BuildData` and `environmentToSlice` (expr.go lines 101-128 and
176-188).  Go maps are modelled as association lists with first-match
lookup; `mapSet` realises the overwrite semantics of map assignment. -/

/-- Lookup in the association-list model of a Go map. -/
def lookupD (m : List (List Char × GoVal)) (k : List Char) : Option GoVal :=
  (m.find? fun kv => kv.1 == k).map fun kv => kv.2

/-- Map assignment `m[k] = v` in the association-list model. -/
def mapSet (m : List (List Char × GoVal)) (k : List Char) (v : GoVal) :
    List (List Char × GoVal) :=
  (k, v) :: m.filter fun kv => !(kv.1 == k)

/-- The type assertion `kvPairs[i].(string)` of the `BuildData` loop. -/
def asString : GoVal → Option (List Char)
  | .vString k => some k
  | _ => none

/-- Whether a dynamic value is a Go `string`. -/
def isStrVal (v : GoVal) : Bool := (asString v).isSome

/-- The key/value pairing loop of `BuildData`: every element at an even
index must be a `string` (the first offender is reported, as in the Go
loop); the trailing-singleton case is unreachable because `BuildData`
rejects odd-length argument lists before the loop. -/
def toPairs : List GoVal → Except (List Char) (List (List Char × GoVal))
  | [] => .ok []
  | x :: v :: rest =>
    match asString x with
    | some k =>
      match toPairs rest with
      | .ok ps => .ok ((k, v) :: ps)
      | .error e => .error e
    | none => .error (strL "key must be a string, got " ++ typeName x)
  | [_] => .ok []

/-- The `env` entry value: the supplied environment map as a dynamic value. -/
def envGoVal (envMap : List (List Char × List Char)) : GoVal :=
  .vMap (strL "map[string]string")
    (envMap.map fun kv => (.vString kv.1, .vString kv.2))

/-- The caller-pair map built by the loop of `BuildData`, before the fixed
entries are assigned. -/
def callerMap (ps : List (List Char × GoVal)) : List (List Char × GoVal) :=
  ps.foldl (fun m kv => mapSet m kv.1 kv.2) []

/-- Model of `BuildData` (expr.go lines 101-128).  `runtime.GOOS` and
`runtime.GOARCH` are ambient host identifiers passed explicitly as `goos`
and `goarch`; the `$` entry is the shell closure, represented by its
dynamic function type. -/
def buildData (goos goarch : List Char) (envMap : List (List Char × List Char))
    (kvPairs : List GoVal) : Except (List Char) (List (List Char × GoVal)) :=
  if kvPairs.length % 2 != 0 then .error (strL "uneven number of key-value pairs")
  else
    match toPairs kvPairs with
    | .error e => .error e
    | .ok ps =>
      .ok (mapSet (mapSet (mapSet (mapSet (callerMap ps)
            (strL "os") (.vString goos))
            (strL "arch") (.vString goarch))
            (strL "env") (envGoVal envMap))
            (strL "$") (.vFunc (strL "func(string) (string, error)")))

/-- Lookup in the string-to-string environment map model. -/
def lookupS (env : List (List Char × List Char)) (k : List Char) :
    Option (List Char) :=
  (env.find? fun kv => kv.1 == k).map fun kv => kv.2

/-- The loop body `env[k] = os.ExpandEnv(v)` applied to one map entry. -/
def expandEntry (expand : List Char → List Char)
    (kv : List Char × List Char) : List Char × List Char :=
  if kv.2.contains '$' || kv.2.contains '\x7b' then (kv.1, expand kv.2) else kv

/-- Model of `environmentToSlice` (expr.go lines 176-188), invoked by the
`$` shell closure.  `os.ExpandEnv` reads the ambient process environment and
is passed explicitly as `expand`.  The first component is the post-state of
the caller's environment map (the function mutates it in place: every value
containing `$` or `\x7b` is replaced by its expansion); the second is the
`KEY=value` slice built from the mutated map. -/
def environmentToSlice (expand : List Char → List Char)
    (env : List (List Char × List Char)) :
    List (List Char × List Char) × List (List Char) :=
  let env2 := env.map (expandEntry expand)
  (env2, env2.map fun kv => kv.1 ++ '=' :: kv.2)

/-! Generic helper lemmas. -/

theorem find?_cons_pos {α : Type} (p : α → Bool) (a : α) (l : List α)
    (h : p a = true) : List.find? p (a :: l) = some a := by
  simp [List.find?_cons, h]

theorem find?_cons_neg {α : Type} (p : α → Bool) (a : α) (l : List α)
    (h : p a = false) : List.find? p (a :: l) = List.find? p l := by
  simp [List.find?_cons, h]

theorem len_dropWhile_le (p : Char → Bool) (l : List Char) :
    (l.dropWhile p).length ≤ l.length :=
  (List.dropWhile_sublist p).length_le

theorem dropWhile_length_eq {p : Char → Bool} {l : List Char}
    (h : (l.dropWhile p).length = l.length) : l.dropWhile p = l := by
  cases l with
  | nil => rfl
  | cons a t =>
    cases hp : p a with
    | false => simp [List.dropWhile_cons, hp]
    | true =>
      rw [List.dropWhile_cons, if_pos hp] at h
      have := len_dropWhile_le p t
      simp at h
      omega

theorem trimRight_length_le (l : List Char) :
    (trimRight l).length ≤ l.length := by
  unfold trimRight
  calc (l.reverse.dropWhile isSp).reverse.length
      = (l.reverse.dropWhile isSp).length := List.length_reverse _
    _ ≤ l.reverse.length := len_dropWhile_le _ _
    _ = l.length := List.length_reverse _

theorem trimmed_parts {l : List Char} (h : trimSpace l = l) :
    trimLeft l = l ∧ trimRight l = l := by
  have h1 : (trimLeft l).length ≤ l.length := len_dropWhile_le _ _
  have h2 : (trimRight (trimLeft l)).length ≤ (trimLeft l).length :=
    trimRight_length_le _
  have hlen : (trimSpace l).length = l.length := by rw [h]
  have h3 : (trimLeft l).length = l.length := by
    unfold trimSpace at hlen
    omega
  have h4 : trimLeft l = l := dropWhile_length_eq h3
  refine ⟨h4, ?_⟩
  calc trimRight l = trimRight (trimLeft l) := by rw [h4]
    _ = trimSpace l := rfl
    _ = l := h

theorem trimLeft_cons_nonsp (c : Char) (h : isSp c = false) (l : List Char) :
    trimLeft (c :: l) = c :: l := by
  unfold trimLeft
  rw [List.dropWhile_cons, if_neg (by simp [h])]

theorem last_not_sp {l : List Char} (h : trimRight l = l) (hne : l ≠ []) :
    ∃ c t, l.reverse = c :: t ∧ isSp c = false := by
  unfold trimRight at h
  cases hr : l.reverse with
  | nil => exact absurd (by simpa using hr) hne
  | cons c t =>
    refine ⟨c, t, rfl, ?_⟩
    rw [hr] at h
    cases hp : isSp c with
    | false => rfl
    | true =>
      rw [List.dropWhile_cons, if_pos hp] at h
      have hlen := congrArg List.length h
      have hd := len_dropWhile_le isSp t
      have hlr := congrArg List.length hr
      simp [List.length_reverse] at hlen hlr
      omega

theorem trimRight_append_right (x l : List Char) (h : trimRight l = l)
    (hne : l ≠ []) : trimRight (x ++ l) = x ++ l := by
  obtain ⟨c, t, hrev, hc⟩ := last_not_sp h hne
  have hl : l = t.reverse ++ [c] := by
    rw [← List.reverse_reverse l, hrev]
    simp
  unfold trimRight
  rw [List.reverse_append, hrev]
  rw [show (c :: t) ++ x.reverse = c :: (t ++ x.reverse) from rfl]
  rw [List.dropWhile_cons, if_neg (by simp [hc])]
  rw [List.reverse_cons, List.reverse_append, List.reverse_reverse, hl]
  simp

theorem trimSpace_cons_append {c0 : Char} (h0 : isSp c0 = false)
    (kwrest l : List Char) (h : trimSpace l = l) (hne : l ≠ []) :
    trimSpace ((c0 :: kwrest) ++ l) = (c0 :: kwrest) ++ l := by
  obtain ⟨_, hR⟩ := trimmed_parts h
  unfold trimSpace
  rw [show (c0 :: kwrest) ++ l = c0 :: (kwrest ++ l) from rfl,
    trimLeft_cons_nonsp c0 h0,
    show c0 :: (kwrest ++ l) = (c0 :: kwrest) ++ l from rfl]
  exact trimRight_append_right _ _ hR hne

theorem pfx_append (p r : List Char) : p.isPrefixOf (p ++ r) = true := by
  induction p with
  | nil => simp
  | cons a t ih => simp [List.isPrefixOf, ih]

theorem dropPre_self_append (p r : List Char) : dropPre p (p ++ r) = r := by
  unfold dropPre
  rw [pfx_append]
  simp [List.drop_left]

theorem beq_false_of_ne {l1 l2 : List Char} (h : l1 ≠ l2) :
    (l1 == l2) = false := by
  cases hb : (l1 == l2) with
  | true => exact (h (eq_of_beq hb)).elim
  | false => rfl

theorem isGoSyn_nil (d : Int) : isGoSyn [] d = false := by
  simp [isGoSyn, trimSpace, trimLeft, trimRight, List.isPrefixOf, dotL]

theorem ne_nil_of_isGoSyn {v : List Char} {d : Int}
    (h : isGoSyn v d = true) : v ≠ [] := by
  intro he
  subst he
  rw [isGoSyn_nil] at h
  exact absurd h (by simp)

theorem containsCE_nil : containsCE [] = false := rfl

theorem ne_nil_of_containsCE {v : List Char} (h : containsCE v = true) :
    v ≠ [] := by
  intro he
  subst he
  exact absurd h (by simp [containsCE_nil])

theorem trimSpace_kw_append (kw : List Char) {c0 : Char} {rest : List Char}
    (hkw : kw = c0 :: rest) (h0 : isSp c0 = false) (l : List Char)
    (h : trimSpace l = l) (hne : l ≠ []) :
    trimSpace (kw ++ l) = kw ++ l := by
  subst hkw
  exact trimSpace_cons_append h0 rest l h hne

/-! Keyword-disambiguation facts, all definitional. -/

theorem notPfx_if_elseif (v : List Char) :
    kwIf.isPrefixOf (kwElseIf ++ v) = false := rfl

theorem notPfx_if_with (v : List Char) :
    kwIf.isPrefixOf (kwWith ++ v) = false := rfl

theorem notPfx_elseif_with (v : List Char) :
    kwElseIf.isPrefixOf (kwWith ++ v) = false := rfl

theorem notPfx_if_range (v : List Char) :
    kwIf.isPrefixOf (kwRange ++ v) = false := rfl

theorem notPfx_elseif_range (v : List Char) :
    kwElseIf.isPrefixOf (kwRange ++ v) = false := rfl

theorem notPfx_with_range (v : List Char) :
    kwWith.isPrefixOf (kwRange ++ v) = false := rfl

theorem beq_range_end (v : List Char) : ((kwRange ++ v) == kwEnd) = false := rfl

theorem beq_range_else (v : List Char) :
    ((kwRange ++ v) == kwElse) = false := rfl

/-! Branch behaviour of the variant-B `processAction` on host-syntax
fragments, and of variant A's switch. -/

theorem processAction_if_goSyn (d : Int) (c : List Char)
    (htr : trimSpace c = c) (hgo : isGoSyn c d = true) :
    processAction (kwIf ++ c) d = kwIf ++ c := by
  have hne := ne_nil_of_isGoSyn hgo
  have hts := trimSpace_kw_append kwIf
    (show kwIf = 'i' :: strL "f " from rfl) (by decide) c htr hne
  show processActionT (trimSpace (kwIf ++ c)) d = _
  rw [hts]
  unfold processActionT
  rw [if_pos (pfx_append kwIf c), dropPre_self_append, htr]
  unfold mkCond
  rw [if_pos hgo]

theorem processAction_elseif_goSyn (d : Int) (c : List Char)
    (htr : trimSpace c = c) (hgo : isGoSyn c d = true) :
    processAction (kwElseIf ++ c) d = kwElseIf ++ c := by
  have hne := ne_nil_of_isGoSyn hgo
  have hts := trimSpace_kw_append kwElseIf
    (show kwElseIf = 'e' :: strL "lse if " from rfl) (by decide) c htr hne
  show processActionT (trimSpace (kwElseIf ++ c)) d = _
  rw [hts]
  unfold processActionT
  rw [if_neg (by simp [notPfx_if_elseif c]),
    if_pos (pfx_append kwElseIf c), dropPre_self_append, htr]
  unfold mkCond
  rw [if_pos hgo]

theorem processAction_with_goSyn (d : Int) (v : List Char)
    (htr : trimSpace v = v) (hgo : isGoSyn v d = true) :
    processAction (kwWith ++ v) d = kwWith ++ v := by
  have hne := ne_nil_of_isGoSyn hgo
  have hts := trimSpace_kw_append kwWith
    (show kwWith = 'w' :: strL "ith " from rfl) (by decide) v htr hne
  show processActionT (trimSpace (kwWith ++ v)) d = _
  rw [hts]
  unfold processActionT
  rw [if_neg (by simp [notPfx_if_with v]),
    if_neg (by simp [notPfx_elseif_with v]),
    if_pos (pfx_append kwWith v), dropPre_self_append, htr]
  unfold mkWithB
  rw [if_pos hgo]

theorem processAction_range_goSyn (d : Int) (v : List Char)
    (htr : trimSpace v = v) (hcce : containsCE v = false)
    (hgo : isGoSyn v d = true) :
    processAction (kwRange ++ v) d = kwRange ++ v := by
  have hne := ne_nil_of_isGoSyn hgo
  have hts := trimSpace_kw_append kwRange
    (show kwRange = 'r' :: strL "ange " from rfl) (by decide) v htr hne
  show processActionT (trimSpace (kwRange ++ v)) d = _
  rw [hts]
  unfold processActionT
  rw [if_neg (by simp [notPfx_if_range v]),
    if_neg (by simp [notPfx_elseif_range v]),
    if_neg (by simp [notPfx_with_range v]),
    if_pos (pfx_append kwRange v), dropPre_self_append, htr]
  unfold mkRangeB
  rw [if_neg (by simp [hcce])]
  unfold mkRangePlainB
  rw [if_pos hgo]

theorem processAction_bare_goSyn (d : Int) (a : List Char)
    (htr : trimSpace a = a)
    (h1 : kwIf.isPrefixOf a = false) (h2 : kwElseIf.isPrefixOf a = false)
    (h3 : kwWith.isPrefixOf a = false) (h4 : kwRange.isPrefixOf a = false)
    (hcce : containsCE a = false) (hne1 : a ≠ kwEnd) (hne2 : a ≠ kwElse)
    (hgo : isGoSyn a d = true) :
    processAction a d = a := by
  show processActionT (trimSpace a) d = _
  rw [htr]
  unfold processActionT
  rw [if_neg (by simp [h1]), if_neg (by simp [h2]), if_neg (by simp [h3]),
    if_neg (by simp [h4])]
  unfold assignOrRestB
  rw [if_neg (by simp [hcce])]
  unfold restB
  rw [if_neg (by simp [beq_false_of_ne hne1, beq_false_of_ne hne2]),
    if_pos hgo]

theorem processAction_assign_goSyn (d : Int) (a p q : List Char)
    (htr : trimSpace a = a)
    (h1 : kwIf.isPrefixOf a = false) (h2 : kwElseIf.isPrefixOf a = false)
    (h3 : kwWith.isPrefixOf a = false) (h4 : kwRange.isPrefixOf a = false)
    (hcce : containsCE a = true) (hsp : splitCE a = [p, q])
    (hgoq : isGoSyn (trimSpace q) d = true) :
    processAction a d
      = trimSpace p ++ strL " := (setVar "
          ++ goQuote (dropPre dollarL (trimSpace p))
          ++ [' '] ++ trimSpace q ++ [')'] := by
  show processActionT (trimSpace a) d = _
  rw [htr]
  unfold processActionT
  rw [if_neg (by simp [h1]), if_neg (by simp [h2]), if_neg (by simp [h3]),
    if_neg (by simp [h4])]
  unfold assignOrRestB
  rw [if_pos hcce, hsp]
  show mkAssignB p q d = _
  unfold mkAssignB
  rw [if_pos hgoq]

theorem processAction_range_malformed (d : Int) (v : List Char)
    (htr : trimSpace v = v) (hcce : containsCE v = true)
    (hlen : (splitCE v).length ≠ 2) :
    processAction (kwRange ++ v) d
      = if isGoSyn v d then kwRange ++ v
        else strL "range expr \x60" ++ v ++ ['\x60'] := by
  have hne := ne_nil_of_containsCE hcce
  have hts := trimSpace_kw_append kwRange
    (show kwRange = 'r' :: strL "ange " from rfl) (by decide) v htr hne
  show processActionT (trimSpace (kwRange ++ v)) d = _
  rw [hts]
  unfold processActionT
  rw [if_neg (by simp [notPfx_if_range v]),
    if_neg (by simp [notPfx_elseif_range v]),
    if_neg (by simp [notPfx_with_range v]),
    if_pos (pfx_append kwRange v), dropPre_self_append, htr]
  unfold mkRangeB
  rw [if_pos hcce]
  cases hsp : splitCE v with
  | nil =>
    show mkRangePlainB v d = _
    unfold mkRangePlainB
    rfl
  | cons p1 t1 =>
    cases t1 with
    | nil =>
      show mkRangePlainB v d = _
      unfold mkRangePlainB
      rfl
    | cons p2 t2 =>
      cases t2 with
      | nil => exact absurd (by rw [hsp]; rfl) hlen
      | cons p3 t3 =>
        show mkRangePlainB v d = _
        unfold mkRangePlainB
        rfl

theorem processAction_range_binding (d : Int) (v p q : List Char)
    (htr : trimSpace v = v) (hcce : containsCE v = true)
    (hsp : splitCE v = [p, q]) :
    processAction (kwRange ++ v) d
      = if isGoSyn (trimSpace q) d then
          kwRange ++ trimSpace p ++ strL " := " ++ trimSpace q
        else kwRange ++ trimSpace p ++ strL " := expr \x60"
          ++ trimSpace q ++ ['\x60'] := by
  have hne := ne_nil_of_containsCE hcce
  have hts := trimSpace_kw_append kwRange
    (show kwRange = 'r' :: strL "ange " from rfl) (by decide) v htr hne
  show processActionT (trimSpace (kwRange ++ v)) d = _
  rw [hts]
  unfold processActionT
  rw [if_neg (by simp [notPfx_if_range v]),
    if_neg (by simp [notPfx_elseif_range v]),
    if_neg (by simp [notPfx_with_range v]),
    if_pos (pfx_append kwRange v), dropPre_self_append, htr]
  unfold mkRangeB
  rw [if_pos hcce, hsp]

theorem processActionA_with (d : Int) (v : List Char)
    (htr : trimSpace v = v) :
    processActionA (kwWith ++ v) d = strL "with expr \x60" ++ v ++ ['\x60'] := by
  unfold processActionA
  rw [if_neg (by simp [notPfx_if_with v]),
    if_pos (pfx_append kwWith v), dropPre_self_append, htr]

theorem processActionA_range_malformed (d : Int) (v : List Char)
    (htr : trimSpace v = v) (hcce : containsCE v = true)
    (hlen : (splitCE v).length ≠ 2) :
    processActionA (kwRange ++ v) d = kwRange ++ v := by
  unfold processActionA
  rw [if_neg (by simp [notPfx_if_range v]),
    if_neg (by simp [notPfx_with_range v]),
    if_neg (by simp [beq_range_end v]),
    if_neg (by simp [beq_range_else v]),
    if_neg (by simp [notPfx_elseif_range v]),
    if_pos (pfx_append kwRange v), dropPre_self_append, htr]
  rw [if_pos hcce]
  cases hsp : splitCE v with
  | nil => rfl
  | cons p1 t1 =>
    cases t1 with
    | nil => rfl
    | cons p2 t2 =>
      cases t2 with
      | nil => exact absurd (by rw [hsp]; rfl) hlen
      | cons p3 t3 => rfl

theorem lookupD_mapSet_same (m : List (List Char × GoVal)) (k : List Char)
    (v : GoVal) : lookupD (mapSet m k v) k = some v := by
  unfold lookupD mapSet
  rw [find?_cons_pos (fun kv => kv.1 == k) (k, v) _
    (by show (k == k) = true; simp)]
  rfl

theorem find?_filter_keyne (m : List (List Char × GoVal)) (k k' : List Char)
    (h : k' ≠ k) :
    List.find? (fun kv => kv.1 == k') (m.filter fun kv => !(kv.1 == k))
      = List.find? (fun kv => kv.1 == k') m := by
  induction m with
  | nil => rfl
  | cons kv t ih =>
    by_cases hk : (kv.1 == k) = true
    · have h1 : kv.1 = k := eq_of_beq hk
      have h2 : (kv.1 == k') = false := by
        refine beq_eq_false_iff_ne.mpr ?_
        rw [h1]
        exact fun e => h e.symm
      rw [List.filter_cons_of_neg (by simp [hk]),
        find?_cons_neg (fun kv => kv.1 == k') kv t h2, ih]
    · have hk0 : (kv.1 == k) = false := by
        cases hb : (kv.1 == k) with
        | true => exact absurd hb hk
        | false => rfl
      rw [List.filter_cons_of_pos (by simp [hk0])]
      by_cases h3 : (kv.1 == k') = true
      · rw [find?_cons_pos (fun kv => kv.1 == k') kv _ h3,
          find?_cons_pos (fun kv => kv.1 == k') kv t h3]
      · have h30 : (kv.1 == k') = false := by
          cases hb : (kv.1 == k') with
          | true => exact absurd hb h3
          | false => rfl
        rw [find?_cons_neg (fun kv => kv.1 == k') kv _ h30,
          find?_cons_neg (fun kv => kv.1 == k') kv t h30, ih]

theorem lookupD_mapSet_other (m : List (List Char × GoVal)) (k k' : List Char)
    (v : GoVal) (h : k' ≠ k) : lookupD (mapSet m k v) k' = lookupD m k' := by
  unfold lookupD mapSet
  rw [find?_cons_neg (fun kv => kv.1 == k') (k, v) _
    (by show (k == k') = false
        cases hb : (k == k') with
        | true => exact (h (eq_of_beq hb).symm).elim
        | false => rfl),
    find?_filter_keyne m k k' h]

theorem toPairs_err_iff (l : List GoVal) (h : l.length % 2 = 0) :
    isErr (toPairs l) = true
      ↔ ∃ i, i % 2 = 0
          ∧ ∃ x, (l.drop i).head? = some x ∧ isStrVal x = false := by
  match l with
  | [] =>
    simp [toPairs, isErr]
  | [x] =>
    simp at h
  | x :: v :: rest =>
    have ih := toPairs_err_iff rest (by simp [List.length_cons] at h; omega)
    cases hx : asString x with
    | none =>
      constructor
      · intro _
        exact ⟨0, by simp, x, by simp, by simp [isStrVal, hx]⟩
      · intro _
        simp [toPairs, hx, isErr]
    | some k =>
      have hL : isErr (toPairs (x :: v :: rest)) = isErr (toPairs rest) := by
        cases htp : toPairs rest <;> simp [toPairs, hx, htp, isErr]
      rw [hL, ih]
      constructor
      · rintro ⟨i, hmod, x', hd, hb⟩
        exact ⟨i + 2, by omega, x', by
          simpa [List.drop_succ_cons] using hd, hb⟩
      · rintro ⟨i, hmod, x', hd, hb⟩
        match i, hmod with
        | 0, _ =>
          simp at hd
          rw [← hd] at hb
          simp [isStrVal, hx] at hb
        | (i' + 2), hmod =>
          exact ⟨i', by omega, x', by
            simpa [List.drop_succ_cons] using hd, hb⟩
termination_by l.length

/-! Claim theorems. -/

/-- C1 (code bug): the numeric case of `IsTruthy`'s type switch lists five
numeric types in one clause, so `v` keeps the interface type and `v != 0`
compares interfaces: only a dynamic `int` zero is reported falsy, while
`int64`, `float64`, `uint` and `uint64` zeros are reported truthy —
contradicting the claim (and the spec) that a zero of any numeric type
yields false. -/
theorem c1_numeric_zero_truthiness_eval :
    truthyCoerce (GoVal.vInt 0) = Except.ok false
    ∧ truthyCoerce (GoVal.vInt64 0) = Except.ok true
    ∧ truthyCoerce (GoVal.vFloat64 0) = Except.ok true
    ∧ truthyCoerce (GoVal.vUint 0) = Except.ok true
    ∧ truthyCoerce (GoVal.vUint64 0) = Except.ok true
    ∧ truthyCoerce (GoVal.vInt64 0) ≠ Except.ok (!numIsZero (GoVal.vInt64 0)) ∨
      False := by
  refine Or.inl ⟨rfl, rfl, rfl, rfl, rfl, ?_⟩
  intro h
  exact absurd (Except.ok.inj h) (by decide)

/-- C2 (counterexample): in the `template.go` rewriter a host-syntax
`with` value is not passed through unchanged: the `with $x` action is
rewritten into a call-eval (`expr`) invocation. -/
theorem c2_with_hostsyntax_counterexample :
    processActionA (strL "with $x") 0 = strL "with expr \x60$x\x60"
    ∧ processActionA (strL "with $x") 0 ≠ strL "with $x"
    ∧ preProcessExpressionsA (strL "\x7b\x7bwith $x\x7d\x7d")
        = strL "\x7b\x7b with expr \x60$x\x60 \x7d\x7d" := by
  refine ⟨by decide, by decide, by decide⟩

/-- C2 (amended): the second rewriter variant emits a host-syntax
`with <val>` action unchanged, while the `template.go` variant wraps every
`with <val>` value in a call-eval (`expr`) invocation, host-syntax or
not. -/
theorem c2_with_hostsyntax_amended :
    (∀ (d : Int) (v : List Char), trimSpace v = v → isGoSyn v d = true →
        processAction (kwWith ++ v) d = kwWith ++ v)
    ∧ (∀ (d : Int) (v : List Char), trimSpace v = v →
        processActionA (kwWith ++ v) d
          = strL "with expr \x60" ++ v ++ ['\x60']) :=
  ⟨processAction_with_goSyn, processActionA_with⟩

/-- Witness for the amended C2 at a concrete host-syntax value. -/
theorem c2_with_hostsyntax_amended_witness :
    processAction (kwWith ++ strL "$x") 0 = kwWith ++ strL "$x"
    ∧ processActionA (kwWith ++ strL "$x") 0
        = strL "with expr \x60" ++ strL "$x" ++ ['\x60'] :=
  ⟨c2_with_hostsyntax_amended.1 0 (strL "$x") (by decide) (by decide),
   c2_with_hostsyntax_amended.2 0 (strL "$x") (by decide)⟩

/-- C3 (counterexample): two already-host-syntax actions that are not
no-ops under one rewrite pass.  An assignment `$x := $y` has the second
variant insert a `setVar` call (and the `template.go` variant wrap the
right-hand side in `expr`); a binding-form range `range $i, $v := xs`,
host-syntax through its `$`-variables, has only its right-hand side tested
and therefore wrapped in `expr`. -/
theorem c3_hostsyntax_noop_counterexample :
    processAction (strL "$x := $y") 0 = strL "$x := (setVar \"x\" $y)"
    ∧ processAction (strL "$x := $y") 0 ≠ strL "$x := $y"
    ∧ processActionA (strL "$x := $y") 0 = strL "$x := expr \x60$y\x60"
    ∧ processActionA (strL "$x := $y") 0 ≠ strL "$x := $y"
    ∧ processAction (strL "range $i, $v := xs") 0
        = strL "range $i, $v := expr \x60xs\x60"
    ∧ processAction (strL "range $i, $v := xs") 0
        ≠ strL "range $i, $v := xs" := by
  refine ⟨by decide, by decide, by decide, by decide, by decide, by decide⟩

/-- C3 (amended): for the second rewriter variant one pass is a no-op
(modulo whitespace normalization) on host-syntax `if `, `else if `,
`with ` and bare actions, and on host-syntax `range` sources without `:=`.
It is not a no-op on the remaining action forms even when they contain
`$`-variables: a variable assignment is rewritten into a `setVar` call,
and a binding-form `range <vars> := <rhs>` has only its right-hand side
tested for host-syntax — a host-syntax right-hand side is kept (the action
is merely whitespace-normalized), while any other right-hand side is
wrapped in `expr` even when `<vars>` contains `$`-variables. -/
theorem c3_hostsyntax_noop_amended :
    (∀ (d : Int) (c : List Char), trimSpace c = c → isGoSyn c d = true →
        processAction (kwIf ++ c) d = kwIf ++ c)
    ∧ (∀ (d : Int) (c : List Char), trimSpace c = c → isGoSyn c d = true →
        processAction (kwElseIf ++ c) d = kwElseIf ++ c)
    ∧ (∀ (d : Int) (v : List Char), trimSpace v = v → isGoSyn v d = true →
        processAction (kwWith ++ v) d = kwWith ++ v)
    ∧ (∀ (d : Int) (v : List Char), trimSpace v = v → containsCE v = false →
        isGoSyn v d = true → processAction (kwRange ++ v) d = kwRange ++ v)
    ∧ (∀ (d : Int) (v p q : List Char), trimSpace v = v →
        containsCE v = true → splitCE v = [p, q] →
        processAction (kwRange ++ v) d
          = if isGoSyn (trimSpace q) d then
              kwRange ++ trimSpace p ++ strL " := " ++ trimSpace q
            else kwRange ++ trimSpace p ++ strL " := expr \x60"
              ++ trimSpace q ++ ['\x60'])
    ∧ (∀ (d : Int) (a : List Char), trimSpace a = a →
        kwIf.isPrefixOf a = false → kwElseIf.isPrefixOf a = false →
        kwWith.isPrefixOf a = false → kwRange.isPrefixOf a = false →
        containsCE a = false → a ≠ kwEnd → a ≠ kwElse →
        isGoSyn a d = true → processAction a d = a)
    ∧ (∀ (d : Int) (a p q : List Char), trimSpace a = a →
        kwIf.isPrefixOf a = false → kwElseIf.isPrefixOf a = false →
        kwWith.isPrefixOf a = false → kwRange.isPrefixOf a = false →
        containsCE a = true → splitCE a = [p, q] →
        isGoSyn (trimSpace q) d = true →
        processAction a d
          = trimSpace p ++ strL " := (setVar "
              ++ goQuote (dropPre dollarL (trimSpace p))
              ++ [' '] ++ trimSpace q ++ [')']) :=
  ⟨processAction_if_goSyn, processAction_elseif_goSyn,
   processAction_with_goSyn, processAction_range_goSyn,
   processAction_range_binding, processAction_bare_goSyn,
   processAction_assign_goSyn⟩

/-- Witness for the amended C3, one concrete instance per branch. -/
theorem c3_hostsyntax_noop_amended_witness :
    processAction (kwIf ++ strL "$v") 0 = kwIf ++ strL "$v"
    ∧ processAction (kwElseIf ++ strL "$v") 0 = kwElseIf ++ strL "$v"
    ∧ processAction (kwWith ++ strL "$v") 0 = kwWith ++ strL "$v"
    ∧ processAction (kwRange ++ strL "$v") 0 = kwRange ++ strL "$v"
    ∧ processAction (kwRange ++ strL "$i, $v := xs") 0
        = (if isGoSyn (trimSpace (strL " xs")) 0 then
            kwRange ++ trimSpace (strL "$i, $v ") ++ strL " := "
              ++ trimSpace (strL " xs")
          else kwRange ++ trimSpace (strL "$i, $v ") ++ strL " := expr \x60"
            ++ trimSpace (strL " xs") ++ ['\x60'])
    ∧ processAction (strL "$v") 0 = strL "$v"
    ∧ processAction (strL "$x := $y") 0
        = trimSpace (strL "$x ") ++ strL " := (setVar "
            ++ goQuote (dropPre dollarL (trimSpace (strL "$x ")))
            ++ [' '] ++ trimSpace (strL " $y") ++ [')'] :=
  ⟨c3_hostsyntax_noop_amended.1 0 (strL "$v") (by decide) (by decide),
   c3_hostsyntax_noop_amended.2.1 0 (strL "$v") (by decide) (by decide),
   c3_hostsyntax_noop_amended.2.2.1 0 (strL "$v") (by decide) (by decide),
   c3_hostsyntax_noop_amended.2.2.2.1 0 (strL "$v") (by decide) (by decide)
     (by decide),
   c3_hostsyntax_noop_amended.2.2.2.2.1 0 (strL "$i, $v := xs")
     (strL "$i, $v ") (strL " xs") (by decide) (by decide) (by decide),
   c3_hostsyntax_noop_amended.2.2.2.2.2.1 0 (strL "$v") (by decide)
     (by decide) (by decide) (by decide) (by decide) (by decide) (by decide)
     (by decide) (by decide),
   c3_hostsyntax_noop_amended.2.2.2.2.2.2 0 (strL "$x := $y") (strL "$x ")
     (strL " $y") (by decide) (by decide) (by decide) (by decide)
     (by decide) (by decide) (by decide) (by decide)⟩

/-- C6 (counterexample): in the second rewriter variant a `range` action
whose source splits on `:=` into three segments is not passed through
unchanged; the whole source is wrapped in a call-eval (`expr`)
invocation. -/
theorem c6_range_malformed_counterexample :
    processAction (strL "range a:=b:=c") 0 = strL "range expr \x60a:=b:=c\x60"
    ∧ processAction (strL "range a:=b:=c") 0 ≠ strL "range a:=b:=c" := by
  refine ⟨by decide, by decide⟩

/-- C6 (amended): on a `range <src>` action whose `:=` split has a number
of segments other than two, neither rewriter fails: the `template.go`
variant passes the action through unchanged, while the second variant
falls through to the plain `range` handling (host-syntax sources pass
unchanged, any other source is wrapped whole in a call-eval invocation). -/
theorem c6_range_malformed_amended :
    (∀ (d : Int) (v : List Char), trimSpace v = v → containsCE v = true →
        (splitCE v).length ≠ 2 →
        processActionA (kwRange ++ v) d = kwRange ++ v)
    ∧ (∀ (d : Int) (v : List Char), trimSpace v = v → containsCE v = true →
        (splitCE v).length ≠ 2 →
        processAction (kwRange ++ v) d
          = if isGoSyn v d then kwRange ++ v
            else strL "range expr \x60" ++ v ++ ['\x60']) :=
  ⟨processActionA_range_malformed, processAction_range_malformed⟩

/-- Witness for the amended C6 at a concrete malformed split. -/
theorem c6_range_malformed_amended_witness :
    processActionA (kwRange ++ strL "a:=b:=c") 0 = kwRange ++ strL "a:=b:=c"
    ∧ processAction (kwRange ++ strL "a:=b:=c") 0
        = if isGoSyn (strL "a:=b:=c") 0 then kwRange ++ strL "a:=b:=c"
          else strL "range expr \x60" ++ strL "a:=b:=c" ++ ['\x60'] :=
  ⟨c6_range_malformed_amended.1 0 (strL "a:=b:=c") (by decide) (by decide)
     (by decide),
   c6_range_malformed_amended.2 0 (strL "a:=b:=c") (by decide) (by decide)
     (by decide)⟩

/-- C7: `EvaluateString`'s rendering stage fails exactly on the unsupported
dynamic types; `nil` and nil pointers render as the empty string; maps,
slices and arrays render via the generic `%v` representation; and the error
text names both the (quoted) expression and the dynamic type. -/
theorem c7_render_characterization :
    ∀ (ex : List Char) (v : GoVal),
      isErr (renderValue ex v) = !renderSupported v
      ∧ renderValue ex GoVal.vNil = Except.ok []
      ∧ (∀ t, renderValue ex (GoVal.vPtr t true) = Except.ok [])
      ∧ (∀ t ps, renderValue ex (GoVal.vMap t ps)
          = Except.ok (fmtV (GoVal.vMap t ps)))
      ∧ (∀ t es, renderValue ex (GoVal.vSlice t es)
          = Except.ok (fmtV (GoVal.vSlice t es)))
      ∧ (∀ t es, renderValue ex (GoVal.vArray t es)
          = Except.ok (fmtV (GoVal.vArray t es)))
      ∧ (renderSupported v = false →
          renderValue ex v = Except.error (unexpMsg ex (typeName v))
          ∧ (∃ a b, unexpMsg ex (typeName v) = a ++ goQuote ex ++ b)
          ∧ (∃ a b, unexpMsg ex (typeName v) = a ++ typeName v ++ b)) := by
  intro ex v
  refine ⟨?_, rfl, fun t => rfl, fun t ps => rfl, fun t es => rfl,
    fun t es => rfl, ?_⟩
  · cases v <;> simp [renderValue, renderSupported, isErr]
    rename_i t isNil
    cases isNil <;> simp [isErr]
  · intro h
    refine ⟨?_, ⟨strL "unexpected output type " ++ typeName v
        ++ strL " from expression ", [], by simp [unexpMsg]⟩,
      ⟨strL "unexpected output type ",
        strL " from expression " ++ goQuote ex, by simp [unexpMsg]⟩⟩
    cases v <;> simp_all [renderSupported, renderValue]

/-- Witness for C7 at a concrete unsupported value. -/
theorem c7_render_characterization_witness :
    isErr (renderValue (strL "x") (GoVal.vOther (strL "chan int")))
        = !renderSupported (GoVal.vOther (strL "chan int"))
    ∧ renderValue (strL "x") (GoVal.vOther (strL "chan int"))
        = Except.error (unexpMsg (strL "x")
            (typeName (GoVal.vOther (strL "chan int")))) := by
  have h := c7_render_characterization (strL "x") (GoVal.vOther (strL "chan int"))
  exact ⟨h.1, (h.2.2.2.2.2.2 rfl).1⟩

/-- C8: `BuildData` fails exactly when the flattened key/value list has odd
length or some element at an even position is not a string; on success the
returned context holds the fixed `os`, `arch`, `env` and `$` entries, and
every non-reserved key is bound exactly as in the map built from the
caller's pairs alone. -/
theorem c8_buildData_characterization :
    ∀ (goos goarch : List Char) (envMap : List (List Char × List Char))
      (kvPairs : List GoVal),
      (isErr (buildData goos goarch envMap kvPairs) = true
        ↔ kvPairs.length % 2 = 1
          ∨ ∃ i, i % 2 = 0
              ∧ ∃ x, (kvPairs.drop i).head? = some x ∧ isStrVal x = false)
      ∧ ∀ m, buildData goos goarch envMap kvPairs = .ok m →
          lookupD m (strL "os") = some (.vString goos)
          ∧ lookupD m (strL "arch") = some (.vString goarch)
          ∧ lookupD m (strL "env") = some (envGoVal envMap)
          ∧ lookupD m (strL "$")
              = some (.vFunc (strL "func(string) (string, error)"))
          ∧ ∀ k, k ≠ strL "os" → k ≠ strL "arch" → k ≠ strL "env" →
              k ≠ strL "$" → ∀ ps, toPairs kvPairs = .ok ps →
                lookupD m k = lookupD (callerMap ps) k := by
  intro goos goarch envMap kvPairs
  constructor
  · by_cases hodd : kvPairs.length % 2 = 0
    · have hg : ¬((kvPairs.length % 2 != 0) = true) := by simp [hodd]
      have hL : isErr (buildData goos goarch envMap kvPairs)
          = isErr (toPairs kvPairs) := by
        unfold buildData
        rw [if_neg hg]
        cases htp : toPairs kvPairs <;> simp [isErr]
      rw [hL, toPairs_err_iff kvPairs hodd]
      constructor
      · intro hb
        exact Or.inr hb
      · rintro (h1 | h2)
        · omega
        · exact h2
    · have h1 : kvPairs.length % 2 = 1 := by omega
      have hg : (kvPairs.length % 2 != 0) = true := by simp [h1]
      have hE : buildData goos goarch envMap kvPairs
          = .error (strL "uneven number of key-value pairs") := by
        unfold buildData
        rw [if_pos hg]
      rw [hE]
      simp [isErr, h1]
  · intro m hm
    by_cases hodd : (kvPairs.length % 2 != 0) = true
    · unfold buildData at hm
      rw [if_pos hodd] at hm
      exact absurd hm (by simp)
    · unfold buildData at hm
      rw [if_neg hodd] at hm
      cases htp : toPairs kvPairs with
      | error e =>
        rw [htp] at hm
        exact absurd hm (by simp)
      | ok ps0 =>
        rw [htp] at hm
        have hm' : Except.ok (ε := List Char) (mapSet (mapSet (mapSet (mapSet
            (callerMap ps0) (strL "os") (.vString goos))
            (strL "arch") (.vString goarch))
            (strL "env") (envGoVal envMap)) (strL "$")
            (.vFunc (strL "func(string) (string, error)"))) = Except.ok m := hm
        have hmv := Except.ok.inj hm'
        subst hmv
        refine ⟨?_, ?_, ?_, ?_, ?_⟩
        · rw [lookupD_mapSet_other _ _ _ _ (by decide),
            lookupD_mapSet_other _ _ _ _ (by decide),
            lookupD_mapSet_other _ _ _ _ (by decide),
            lookupD_mapSet_same]
        · rw [lookupD_mapSet_other _ _ _ _ (by decide),
            lookupD_mapSet_other _ _ _ _ (by decide),
            lookupD_mapSet_same]
        · rw [lookupD_mapSet_other _ _ _ _ (by decide),
            lookupD_mapSet_same]
        · rw [lookupD_mapSet_same]
        · intro k h1 h2 h3 h4 ps hps
          have hpe : ps = ps0 := (Except.ok.inj hps).symm
          subst hpe
          rw [lookupD_mapSet_other _ _ _ _ h4,
            lookupD_mapSet_other _ _ _ _ h3,
            lookupD_mapSet_other _ _ _ _ h2,
            lookupD_mapSet_other _ _ _ _ h1]

/-- Witness for C8 at a concrete argument list. -/
theorem c8_buildData_characterization_witness :
    (buildData (strL "linux") (strL "amd64") [(strL "E", strL "1")]
        [GoVal.vString (strL "a"), GoVal.vInt 1]).map
      (fun m => (lookupD m (strL "os"), lookupD m (strL "$"),
                 lookupD m (strL "a")))
      = Except.ok (some (GoVal.vString (strL "linux")),
          some (GoVal.vFunc (strL "func(string) (string, error)")),
          lookupD (callerMap [(strL "a", GoVal.vInt 1)]) (strL "a")) := by
  have h := c8_buildData_characterization (strL "linux") (strL "amd64")
    [(strL "E", strL "1")] [GoVal.vString (strL "a"), GoVal.vInt 1]
  have hbd : buildData (strL "linux") (strL "amd64") [(strL "E", strL "1")]
      [GoVal.vString (strL "a"), GoVal.vInt 1]
      = Except.ok (mapSet (mapSet (mapSet (mapSet
          (callerMap [(strL "a", GoVal.vInt 1)])
          (strL "os") (GoVal.vString (strL "linux")))
          (strL "arch") (GoVal.vString (strL "amd64")))
          (strL "env") (envGoVal [(strL "E", strL "1")]))
          (strL "$") (GoVal.vFunc (strL "func(string) (string, error)"))) := by
    unfold buildData
    rw [if_neg (by norm_num)]
    rfl
  have hc := h.2 _ hbd
  rw [hbd]
  simp only [Except.map]
  rw [hc.1, hc.2.2.2.1,
    hc.2.2.2.2 (strL "a") (by decide) (by decide) (by decide) (by decide)
      [(strL "a", GoVal.vInt 1)] rfl]

/-- C9: caller-supplied values under the reserved keys `os`, `arch`, `env`
and `$` are silently overwritten in the returned context by the fixed
entries, whatever values the caller passed, because the fixed entries are
assigned after the caller's pairs are inserted. -/
theorem c9_reserved_keys_overwritten :
    ∀ (goos goarch : List Char) (envMap : List (List Char × List Char))
      (v1 v2 v3 v4 : GoVal),
      (buildData goos goarch envMap
          [.vString (strL "os"), v1, .vString (strL "arch"), v2,
           .vString (strL "env"), v3, .vString (strL "$"), v4]).map
        (fun m => (lookupD m (strL "os"), lookupD m (strL "arch"),
                   lookupD m (strL "env"), lookupD m (strL "$")))
        = Except.ok (some (.vString goos), some (.vString goarch),
            some (envGoVal envMap),
            some (.vFunc (strL "func(string) (string, error)"))) := by
  intro goos goarch envMap v1 v2 v3 v4
  have hguard : (([GoVal.vString (strL "os"), v1, .vString (strL "arch"), v2,
      .vString (strL "env"), v3, .vString (strL "$"), v4] : List GoVal).length
        % 2 != 0) = false := by
    norm_num
  simp only [buildData, hguard]
  rfl

/-- C10: invoking the `$` shell closure rewires the caller's environment map
in place via `environmentToSlice`: the key set is unchanged, every entry
whose value contains `$` or `\x7b` is replaced by its ambient expansion, and
every other entry keeps its value. -/
theorem c10_env_expansion_in_place :
    ∀ (expand : List Char → List Char) (env : List (List Char × List Char))
      (k v : List Char),
      ((environmentToSlice expand env).1.map fun kv => kv.1)
          = (env.map fun kv => kv.1)
      ∧ (lookupS env k = some v →
          lookupS (environmentToSlice expand env).1 k
            = some (if v.contains '$' || v.contains '\x7b' then expand v
                else v)) := by
  intro expand env k v
  have hfst : ∀ kv, (expandEntry expand kv).1 = kv.1 := by
    intro kv
    unfold expandEntry
    split <;> rfl
  have hsnd : ∀ kv, (expandEntry expand kv).2
      = if kv.2.contains '$' || kv.2.contains '\x7b' then expand kv.2
        else kv.2 := by
    intro kv
    unfold expandEntry
    split <;> rfl
  constructor
  · show List.map _ (env.map (expandEntry expand)) = _
    rw [List.map_map]
    exact List.map_congr_left fun kv _ => hfst kv
  · intro hlk
    induction env with
    | nil => simp [lookupS, List.find?] at hlk
    | cons kv t ih =>
      have hsplit :
          (environmentToSlice expand (kv :: t)).1
            = expandEntry expand kv :: (environmentToSlice expand t).1 := rfl
      by_cases hk : (kv.1 == k) = true
      · have hv : kv.2 = v := by
          unfold lookupS at hlk
          rw [find?_cons_pos (fun kv => kv.1 == k) kv t hk] at hlk
          simpa using hlk
        rw [hsplit]
        unfold lookupS
        rw [find?_cons_pos (fun kv => kv.1 == k) (expandEntry expand kv)
          (environmentToSlice expand t).1
          (by show ((expandEntry expand kv).1 == k) = true
              rw [hfst kv]; exact hk)]
        simp only [Option.map_some']
        rw [hsnd kv, hv]
      · have hk' : (kv.1 == k) = false := by
          cases h : (kv.1 == k) with
          | true => exact absurd h hk
          | false => rfl
        have hlk' : lookupS t k = some v := by
          unfold lookupS at hlk ⊢
          rw [find?_cons_neg (fun kv => kv.1 == k) kv t hk'] at hlk
          exact hlk
        have hrec := ih hlk'
        rw [hsplit]
        unfold lookupS at hrec ⊢
        rw [find?_cons_neg (fun kv => kv.1 == k) (expandEntry expand kv)
          (environmentToSlice expand t).1
          (by show ((expandEntry expand kv).1 == k) = false
              rw [hfst kv]; exact hk')]
        exact hrec

/-- Witness for C10 at a concrete environment. -/
theorem c10_env_expansion_in_place_witness :
    lookupS (environmentToSlice (fun s => 'E' :: s)
        [(strL "A", strL "$x"), (strL "B", strL "y")]).1 (strL "A")
      = some (strL "E$x")
    ∧ lookupS (environmentToSlice (fun s => 'E' :: s)
        [(strL "A", strL "$x"), (strL "B", strL "y")]).1 (strL "B")
      = some (strL "y") := by
  have h1 := (c10_env_expansion_in_place (fun s => 'E' :: s)
    [(strL "A", strL "$x"), (strL "B", strL "y")] (strL "A") (strL "$x")).2
    (by decide)
  have h2 := (c10_env_expansion_in_place (fun s => 'E' :: s)
    [(strL "A", strL "$x"), (strL "B", strL "y")] (strL "B") (strL "y")).2
    (by decide)
  exact ⟨by simpa using h1, by simpa using h2⟩

/-! Scope-depth lemmas for C4. -/

theorem not_end_of_open {a : List Char} (h : isOpenAct a = true) :
    isEndAct a = false := by
  cases hb : isEndAct a with
  | false => rfl
  | true =>
    have ha : a = kwEnd := eq_of_beq hb
    rw [ha] at h
    exact absurd h (by decide)

theorem depthStep_nonneg (d : Int) (a : List Char) (h : 0 ≤ d) :
    0 ≤ depthStep d a := by
  unfold depthStep
  split
  · omega
  · split
    · split <;> omega
    · omega

theorem foldl_depthStep_nonneg (p : List (List Char)) (d : Int) (h : 0 ≤ d) :
    0 ≤ p.foldl depthStep d := by
  induction p generalizing d with
  | nil => simpa using h
  | cons a t ih => exact ih (depthStep d a) (depthStep_nonneg d a h)

theorem opensCnt_cons (a : List Char) (t : List (List Char)) :
    opensCnt (a :: t) = opensCnt t + (if isOpenAct a then 1 else 0) := by
  simp [opensCnt, List.countP_cons]

theorem endsCnt_cons (a : List Char) (t : List (List Char)) :
    endsCnt (a :: t) = endsCnt t + (if isEndAct a then 1 else 0) := by
  simp [endsCnt, List.countP_cons]

theorem foldl_depthStep_balance (acts : List (List Char)) (d : Int)
    (h0 : 0 ≤ d)
    (hpre : ∀ p q, acts = p ++ q →
      (endsCnt p : Int) ≤ (opensCnt p : Int) + d) :
    acts.foldl depthStep d
      = d + (opensCnt acts : Int) - (endsCnt acts : Int) := by
  induction acts generalizing d with
  | nil => simp [opensCnt, endsCnt]
  | cons a t ih =>
    rw [List.foldl_cons, opensCnt_cons, endsCnt_cons]
    by_cases hop : isOpenAct a = true
    · have hend0 : isEndAct a = false := not_end_of_open hop
      have hstep : depthStep d a = d + 1 := by
        unfold depthStep
        rw [if_pos (by exact hop)]
      have hpre' : ∀ p q, t = p ++ q →
          (endsCnt p : Int) ≤ (opensCnt p : Int) + (d + 1) := by
        intro p q hpq
        have hfull := hpre (a :: p) q (by rw [hpq]; rfl)
        rw [endsCnt_cons, opensCnt_cons] at hfull
        simp [hop, hend0] at hfull
        omega
      have hrec := ih (d + 1) (by omega) hpre'
      rw [hstep, hrec]
      simp [hop, hend0]
      ring
    · have hop0 : isOpenAct a = false := by
        cases hb : isOpenAct a with
        | true => exact absurd hb hop
        | false => rfl
      have hstep0 : ¬((kwRange.isPrefixOf a || kwWith.isPrefixOf a) = true) := by
        simp [show (kwRange.isPrefixOf a || kwWith.isPrefixOf a) = false
          from hop0]
      by_cases hend : isEndAct a = true
      · have h1 := hpre [a] t rfl
        rw [endsCnt_cons, opensCnt_cons] at h1
        simp [hend, hop0, endsCnt, opensCnt] at h1
        have hdpos : 0 < d := by omega
        have hstep : depthStep d a = d - 1 := by
          unfold depthStep
          rw [if_neg hstep0, if_pos (by exact hend), if_pos hdpos]
        have hpre' : ∀ p q, t = p ++ q →
            (endsCnt p : Int) ≤ (opensCnt p : Int) + (d - 1) := by
          intro p q hpq
          have hfull := hpre (a :: p) q (by rw [hpq]; rfl)
          rw [endsCnt_cons, opensCnt_cons] at hfull
          simp [hend, hop0] at hfull
          omega
        have hrec := ih (d - 1) (by omega) hpre'
        rw [hstep, hrec]
        simp [hend, hop0]
        ring
      · have hend0 : isEndAct a = false := by
          cases hb : isEndAct a with
          | true => exact absurd hb hend
          | false => rfl
        have hstep : depthStep d a = d := by
          unfold depthStep
          rw [if_neg hstep0,
            if_neg (by simp [show (a == kwEnd) = false from hend0])]
        have hpre' : ∀ p q, t = p ++ q →
            (endsCnt p : Int) ≤ (opensCnt p : Int) + d := by
          intro p q hpq
          have hfull := hpre (a :: p) q (by rw [hpq]; rfl)
          rw [endsCnt_cons, opensCnt_cons] at hfull
          simp [hend0, hop0] at hfull
          omega
        have hrec := ih d h0 hpre'
        rw [hstep, hrec]
        simp [hend0, hop0]

/-- C4: the scope-depth counter of one rewrite pass never goes negative
(every prefix of the scanned action sequence folds to a non-negative
depth), an `end` seen at depth zero leaves the depth at zero, and a
template whose `range`/`with` openings and `end` actions balance exactly
ends the pass at depth zero. -/
theorem c4_scope_depth :
    ∀ text : List Char,
      (∀ p q, actionsOf text = p ++ q → 0 ≤ p.foldl depthStep 0)
      ∧ depthStep 0 kwEnd = 0
      ∧ (balancedActs (actionsOf text) = true →
          (actionsOf text).foldl depthStep 0 = 0) := by
  intro text
  refine ⟨fun p q hpq => foldl_depthStep_nonneg p 0 (le_refl 0),
    by decide, ?_⟩
  intro hbal
  unfold balancedActs at hbal
  rw [Bool.and_eq_true] at hbal
  obtain ⟨hall, heqb⟩ := hbal
  have heq : endsCnt (actionsOf text) = opensCnt (actionsOf text) := by
    simpa using heqb
  have hpre : ∀ p q, actionsOf text = p ++ q →
      (endsCnt p : Int) ≤ (opensCnt p : Int) + 0 := by
    intro p q hpq
    have hlen : p.length ≤ (actionsOf text).length := by
      rw [hpq]
      simp
    have hmem : p.length ∈ List.range ((actionsOf text).length + 1) := by
      rw [List.mem_range]
      omega
    have hdec := List.all_eq_true.mp hall p.length hmem
    have hle := of_decide_eq_true hdec
    have htake : (actionsOf text).take p.length = p := by
      rw [hpq]
      exact List.take_left _ _
    rw [htake] at hle
    omega
  have hfin := foldl_depthStep_balance (actionsOf text) 0 (le_refl 0) hpre
  rw [hfin, heq]
  ring

/-- Witness for C4 on a concrete balanced template. -/
theorem c4_scope_depth_witness :
    (0 : Int) ≤ [strL "range xs"].foldl depthStep 0
    ∧ depthStep 0 kwEnd = 0
    ∧ (actionsOf (strL "\x7b\x7brange xs\x7d\x7dA\x7b\x7bend\x7d\x7d")).foldl
        depthStep 0 = 0 := by
  have h := c4_scope_depth (strL "\x7b\x7brange xs\x7d\x7dA\x7b\x7bend\x7d\x7d")
  exact ⟨h.1 [strL "range xs"] [strL "end"] (by decide), h.2.1,
    h.2.2 (by decide)⟩

/-! Scan lemmas for C5. -/

theorem scanAux_cons2_some (h : List Char → Int → List Char)
    (c1 c2 : Char) (t2 acc : List Char) (d : Int) :
    scanAux h (c1 :: c2 :: t2) (some acc) d
      = if c1 == cbc && c2 == cbc then
          emitAction h acc.reverse d
            ++ scanAux h t2 none (depthStep d (stripAction acc.reverse))
        else scanAux h (c2 :: t2) (some (c1 :: acc)) d := rfl

theorem scanAux_cons2_none (h : List Char → Int → List Char)
    (c1 c2 : Char) (t2 : List Char) (d : Int) :
    scanAux h (c1 :: c2 :: t2) none d
      = if c1 == obc && c2 == obc then scanAux h t2 (some []) d
        else c1 :: scanAux h (c2 :: t2) none d := rfl

theorem splitPair_cons2 (a b c1 c2 : Char) (rest : List Char) :
    splitPair a b (c1 :: c2 :: rest)
      = if c1 == a && c2 == b then some ([], rest)
        else match splitPair a b (c2 :: rest) with
          | some (p, q) => some (c1 :: p, q)
          | none => none := rfl

theorem scanAux_no_close (h : List Char → Int → List Char)
    (rest : List Char) :
    ∀ (acc : List Char) (d : Int),
      containsStr [cbc, cbc] rest = false →
      scanAux h rest (some acc) d = obc :: obc :: (acc.reverse ++ rest) := by
  induction rest with
  | nil =>
    intro acc d _
    simp [scanAux]
  | cons c1 t ih =>
    intro acc d hnc
    cases t with
    | nil =>
      simp [scanAux]
    | cons c2 t2 =>
      unfold containsStr at hnc
      rw [Bool.or_eq_false_iff] at hnc
      obtain ⟨hnp, hrest⟩ := hnc
      have hcond : (c1 == cbc && c2 == cbc) = false := by
        cases hc1 : (c1 == cbc) with
        | false => rfl
        | true =>
          cases hc2 : (c2 == cbc) with
          | false => rfl
          | true =>
            exfalso
            have e1 : c1 = cbc := eq_of_beq hc1
            have e2 : c2 = cbc := eq_of_beq hc2
            subst e1
            subst e2
            simp [List.isPrefixOf] at hnp
      rw [scanAux_cons2_some, if_neg (by simp [hcond]),
        ih (c1 :: acc) d hrest]
      simp

theorem scanAux_to_open (h : List Char → Int → List Char)
    (text : List Char) :
    ∀ (pre rest : List Char) (d : Int),
      splitPair obc obc text = some (pre, rest) →
      scanAux h text none d = pre ++ scanAux h rest (some []) d := by
  induction text with
  | nil =>
    intro pre rest d hsp
    simp [splitPair] at hsp
  | cons c1 t ih =>
    intro pre rest d hsp
    cases t with
    | nil =>
      rw [show splitPair obc obc [c1] = none from rfl] at hsp
      exact absurd hsp (by simp)
    | cons c2 t2 =>
      rw [splitPair_cons2] at hsp
      by_cases hc : (c1 == obc && c2 == obc) = true
      · rw [if_pos hc] at hsp
        simp only [Option.some.injEq, Prod.mk.injEq] at hsp
        obtain ⟨h1, h2⟩ := hsp
        subst h1
        subst h2
        rw [scanAux_cons2_none, if_pos hc]
        simp
      · have hc0 : (c1 == obc && c2 == obc) = false := by
          cases hb : (c1 == obc && c2 == obc) with
          | true => exact absurd hb hc
          | false => rfl
        rw [if_neg hc] at hsp
        cases hs2 : splitPair obc obc (c2 :: t2) with
        | none =>
          rw [hs2] at hsp
          exact absurd hsp (by simp)
        | some pr =>
          obtain ⟨p2, q2⟩ := pr
          rw [hs2] at hsp
          simp only [Option.some.injEq, Prod.mk.injEq] at hsp
          obtain ⟨h1, h2⟩ := hsp
          subst h1
          subst h2
          rw [scanAux_cons2_none, if_neg hc, ih p2 q2 d hs2]
          simp

/-- C5: when the delimiter scan reaches an opening `\x7b\x7b` with no matching
`\x7d\x7d` anywhere after it, the whole remainder from that `\x7b\x7b` onward is
copied into the output verbatim and the pass ends normally — for any
action handler, and in particular for both rewriter variants; likewise,
from inside any action whose remaining input has no closing pair, the
accumulated fragment and the remainder are emitted verbatim. -/
theorem c5_unterminated_verbatim :
    (∀ (h : List Char → Int → List Char) (d : Int)
        (text pre rest : List Char),
        splitPair obc obc text = some (pre, rest) →
        containsStr [cbc, cbc] rest = false →
        scanAux h text none d = pre ++ obc :: obc :: rest)
    ∧ (∀ (h : List Char → Int → List Char) (d : Int)
        (rest acc : List Char),
        containsStr [cbc, cbc] rest = false →
        scanAux h rest (some acc) d = obc :: obc :: (acc.reverse ++ rest))
    ∧ (∀ text pre rest : List Char,
        splitPair obc obc text = some (pre, rest) →
        containsStr [cbc, cbc] rest = false →
        preProcessExpressionsA text = pre ++ obc :: obc :: rest
        ∧ preProcessExpressionsB text = pre ++ obc :: obc :: rest) := by
  have key : ∀ (h : List Char → Int → List Char) (d : Int)
      (text pre rest : List Char),
      splitPair obc obc text = some (pre, rest) →
      containsStr [cbc, cbc] rest = false →
      scanAux h text none d = pre ++ obc :: obc :: rest := by
    intro h d text pre rest hsp hnc
    rw [scanAux_to_open h text pre rest d hsp,
      scanAux_no_close h rest [] d hnc]
    simp
  exact ⟨key,
    fun h d rest acc hnc => scanAux_no_close h rest acc d hnc,
    fun text pre rest hsp hnc =>
      ⟨key processActionA 0 text pre rest hsp hnc,
       key processAction 0 text pre rest hsp hnc⟩⟩

/-- Witness for C5 on concrete unterminated inputs. -/
theorem c5_unterminated_verbatim_witness :
    scanAux processAction (strL "ab\x7b\x7bcd") none 0
        = strL "ab" ++ obc :: obc :: strL "cd"
    ∧ scanAux processAction (strL "x\x7dy") (some ['q']) 0
        = obc :: obc :: (['q'].reverse ++ strL "x\x7dy")
    ∧ preProcessExpressionsB (strL "ab\x7b\x7bcd")
        = strL "ab" ++ obc :: obc :: strL "cd" := by
  have h := c5_unterminated_verbatim
  exact ⟨h.1 processAction 0 (strL "ab\x7b\x7bcd") (strL "ab") (strL "cd")
      (by decide) (by decide),
    h.2.1 processAction 0 (strL "x\x7dy") ['q'] (by decide),
    (h.2.2 (strL "ab\x7b\x7bcd") (strL "ab") (strL "cd") (by decide)
      (by decide)).2⟩

/-! Concrete evaluation checks mirroring the repository's own test
inputs. -/

theorem eval_plain_action_wrapped :
    preProcessExpressionsB (strL "\x7b\x7b ctx.workspace \x7d\x7d")
      = strL "\x7b\x7b expr \x60ctx.workspace\x60 \x7d\x7d" := by decide

theorem eval_variantA_with_wrapped :
    preProcessExpressionsA (strL "\x7b\x7bwith $x\x7d\x7d")
      = strL "\x7b\x7b with expr \x60$x\x60 \x7d\x7d" := by decide

theorem eval_variantB_with_passthrough :
    processAction (strL "with $x") 0 = strL "with $x" := by decide

theorem eval_variantB_assign_setVar :
    processAction (strL "$x := $y") 0
      = strL "$x := (setVar \"x\" $y)" := by decide

theorem eval_variantB_range_malformed_wrapped :
    processAction (strL "range a:=b:=c") 0
      = strL "range expr \x60a:=b:=c\x60" := by decide

theorem eval_variantA_range_malformed_passthrough :
    processActionA (strL "range a:=b:=c") 0 = strL "range a:=b:=c" := by decide

theorem eval_actions_extraction :
    actionsOf (strL "x\x7b\x7b- range  ws \x7d\x7dy\x7b\x7b end \x7d\x7d")
      = [strL "range  ws", strL "end"] := by decide

theorem eval_unterminated_open_passthrough :
    preProcessExpressionsB (strL "a\x7b\x7b oops")
      = strL "a\x7b\x7b oops" := by decide

end Expression
